import Mathlib

/-!
Shallow embedding of the offline-aware landmark cache subsystem of
LandmarkLocator (src/cache_manager.py and the orchestrator wrappers
named get_landmarks in src/cache_manager.py and src/main.py).

Modelling conventions:
* Python floats are idealised as rationals (ℚ); `round(x, 3)` is modelled
  with round-half-to-even on thousandths (Python banker rounding).
* The landmarks directory is a list of files (name, record, mtime) in
  enumeration order; `os.listdir` is the list of names in that order.
* The images directory is a list of files (name, content, mtime).
* Strings manipulated character-wise (filenames) are `List Char`;
  opaque strings (URLs, payloads) are `String`.
* `float(s)` is modelled by a decimal parser `parseF` covering the sign /
  digits / dot grammar; the exotic float literals Python also accepts
  (exponents, inf, nan, inner underscores) never occur in tokens produced
  by splitting a filename on the underscore character and are rejected,
  matching the only uses in the source.
* Exceptions are `Except Unit`; the collaborating network, hash and image
  validator are an explicit oracle record `ImageOracle` (fixed during a
  run), and a fetch source invocation is a value `Except Unit (List Landmark)`
  passed to the orchestrator together with a flag in the result telling
  whether the source was invoked.
-/

attribute [local semireducible] Rat.add Rat.sub Rat.mul Rat.inv

deriving instance DecidableEq for Except

/-- A landmark dictionary, restricted to the fields the cache subsystem
reads or writes: the optional image_url entry (`none` models the key being
absent), the legacy optional cached_image entry, and an opaque payload
standing for all remaining key/value pairs (title, summary, url,
coordinates, distance, relevance). -/
structure Landmark where
  image_url : Option String
  cached_image : Option String
  payload : String
deriving DecidableEq, Repr

/-- Python truthiness of `'image_url' in landmark and landmark['image_url']`. -/
def truthyImage (lm : Landmark) : Bool :=
  match lm.image_url with
  | some s => s ≠ ""
  | none => false

/-- A map viewport: the (south, west, north, east) tuple of floats. -/
structure Bounds where
  south : ℚ
  west : ℚ
  north : ℚ
  east : ℚ
deriving DecidableEq, Repr

/-- The bounds tuple in Python iteration order. -/
def boundsList (b : Bounds) : List ℚ := [b.south, b.west, b.north, b.east]

/-- The JSON record persisted by cache_landmarks:
`{landmarks, timestamp, bounds, language}`. -/
structure CacheRecord where
  landmarks : List Landmark
  timestamp : ℚ
  bounds : Bounds
  language : List Char
deriving DecidableEq, Repr

/-- A file of the landmarks directory: name, parsed JSON content and
modification time. -/
structure LmFile where
  name : List Char
  content : CacheRecord
  mtime : ℚ
deriving DecidableEq, Repr

/-- A file of the images directory: name, byte content and modification
time. -/
structure ImgFile where
  name : String
  content : String
  mtime : ℚ
deriving DecidableEq, Repr

/-- The st.session_state.cache_stats dictionary. last_update is stored by
the source as a formatted wall-clock string; it is modelled as the clock
value itself. -/
structure Stats where
  landmarks_cached : ℕ
  images_cached : ℕ
  last_update : Option ℚ
deriving DecidableEq, Repr

/-- The mutable world the cache manager touches: the two cache directories
and the session-state statistics. -/
structure SysState where
  lmFiles : List LmFile
  imgFiles : List ImgFile
  stats : Stats
deriving DecidableEq, Repr

/-- External collaborators of _cache_image, fixed for a run: the image
validator (URL check and decoded-file check, each returning a verdict and
a message), the HTTP client (`none` models a raised requests exception,
`some (status, body)` a response), and the MD5 hex digest. The file check
validates what is stored at the path, hence is applied to file content. -/
structure ImageOracle where
  validate_image_url : String → Bool × String
  http_get : String → Option (ℕ × String)
  validate_content : String → Bool × String
  md5hex : String → String

/-! ### Decimal rendering and parsing

`cache_landmarks` builds file names with `str(round(b, 3))` and
`get_cached_landmarks` recovers floats with `float(token)`; both are
modelled exactly for thousandth-grid values. -/

/-- Little-endian base-10 digits, fuel-driven (fuel `n` suffices). -/
def digAux : ℕ → ℕ → List ℕ
  | 0, _ => []
  | fuel + 1, n => if n = 0 then [] else n % 10 :: digAux fuel (n / 10)

/-- Little-endian base-10 digits of a natural number (empty for 0). -/
def natLE (n : ℕ) : List ℕ := digAux n n

/-- Value of a little-endian digit list. -/
def ofDig : List ℕ → ℕ
  | [] => 0
  | d :: ds => d + 10 * ofDig ds

/-- Decimal character rendering of a natural number, as Python str. -/
def natChars (n : ℕ) : List Char :=
  if n = 0 then ['0'] else ((natLE n).map Nat.digitChar).reverse

/-- The three decimal digits of a fractional part below 1000. -/
def pad3 (f : ℕ) : List Char :=
  [Nat.digitChar (f / 100), Nat.digitChar (f / 10 % 10), Nat.digitChar (f % 10)]

/-- Remove trailing zero characters, as Python float repr does after the
decimal point. -/
def stripTrailZeros (l : List Char) : List Char :=
  (l.reverse.dropWhile (fun c => c = '0')).reverse

/-- Fractional digits printed after the dot: trailing zeros stripped, a
lone 0 kept when the fraction vanishes. -/
def fracChars (f : ℕ) : List Char :=
  let s := stripTrailZeros (pad3 f)
  if s = [] then ['0'] else s

/-- `str` of the float with value k/1000, for k a signed count of
thousandths: sign, integer part, dot, stripped fractional digits. -/
def renderTh (k : ℤ) : List Char :=
  (if k < 0 then ['-'] else []) ++
    natChars (k.natAbs / 1000) ++ '.' :: fracChars (k.natAbs % 1000)

/-- Python round-half-to-even of a rational to an integer. -/
def pyRoundZ (x : ℚ) : ℤ :=
  let f := ⌊x⌋
  let r := x - f
  if r < 1/2 then f
  else if 1/2 < r then f + 1
  else if f % 2 = 0 then f else f + 1

/-- `round(b, 3)` as a count of thousandths. -/
def roundTh (b : ℚ) : ℤ := pyRoundZ (1000 * b)

/-- Numeric value of a digit character sequence (Horner, big-endian). -/
def parseNatChars (l : List Char) : ℕ :=
  l.foldl (fun a c => 10 * a + (c.toNat - 48)) 0

/-- All characters are decimal digits. -/
def allDigits (l : List Char) : Bool := l.all Char.isDigit

/-- `float(s)` on an unsigned decimal literal: digits, optionally a dot
and fractional digits, at least one digit overall; anything else raises
(models the ValueError as `none`). -/
def parseUF (s : List Char) : Option ℚ :=
  let ip := s.takeWhile Char.isDigit
  let rest := s.dropWhile Char.isDigit
  match rest with
  | [] => if ip = [] then none else some (parseNatChars ip : ℚ)
  | '.' :: fr =>
    if allDigits fr ∧ (ip ≠ [] ∨ fr ≠ []) then
      some ((parseNatChars ip : ℚ) +
        (parseNatChars fr : ℚ) / (((10 : ℕ) ^ fr.length : ℕ) : ℚ))
    else none
  | _ => none

/-- `float(s)` with an optional sign. -/
def parseF : List Char → Option ℚ
  | '-' :: rest => (parseUF rest).map (fun q => -q)
  | '+' :: rest => parseUF rest
  | s => parseUF s

/-! ### Filename handling -/

/-- Python `s.split('_')` on character lists. -/
def splitU : List Char → List (List Char)
  | [] => [[]]
  | c :: rest =>
    match splitU rest with
    | [] => [[c]]
    | g :: gs => if c = '_' then [] :: g :: gs else (c :: g) :: gs

/-- Python `'_'.join(parts)`. -/
def joinU : List (List Char) → List Char
  | [] => []
  | [x] => x
  | x :: xs => x ++ '_' :: joinU xs

/-- Python `s.startswith(p)`. -/
def hasPre : List Char → List Char → Bool
  | [], _ => true
  | _ :: _, [] => false
  | p :: ps, c :: cs => p = c && hasPre ps cs

/-- The filename filter string of get_cached_landmarks:
`landmarks_{language}_`. -/
def lmPre (lang : List Char) : List Char :=
  "landmarks_".toList ++ lang ++ ['_']

/-- The rounded bound tokens of the cache key, in tuple order. -/
def boundsTokens (b : Bounds) : List (List Char) :=
  [renderTh (roundTh b.south), renderTh (roundTh b.west),
   renderTh (roundTh b.north), renderTh (roundTh b.east)]

/-- The cache file name written by cache_landmarks:
`landmarks_{language}_{s}_{w}_{n}_{e}.json` with bounds rounded to three
decimals. -/
def lmFileName (lang : List Char) (b : Bounds) : List Char :=
  "landmarks_".toList ++ lang ++ ['_'] ++ joinU (boundsTokens b) ++ ".json".toList

/-! ### Landmark cache store: read path -/

/-- Squared euclidean distance over `zip(bounds, cached_bounds)`; the zip
truncates to the shorter list, as in Python. -/
def distSq (req cached : List ℚ) : ℚ :=
  ((req.zip cached).map (fun p => (p.1 - p.2) * (p.1 - p.2))).sum

/-- The bounds floats recovered from a file name:
`[float(x) for x in cache_file.split('_')[2:-1]]`; `none` models the
ValueError raised on an unparseable token. -/
def parseBoundsOf (name : List Char) : Option (List ℚ) :=
  (((splitU name).drop 2).dropLast).mapM parseF

/-- `distance < min_distance` with min_distance starting at infinity. -/
def ltInf (d : ℚ) : Option ℚ → Bool
  | none => true
  | some m => decide (d < m)

/-- The selection loop of get_cached_landmarks over the directory listing:
keeps the first file of matching language whose parsed bounds minimise the
squared distance; an unparseable matching file raises (ValueError),
modelled as `.error`. -/
def findClosest (req : List ℚ) (lang : List Char) :
    List (List Char) → Option ℚ → Option (List Char) → Except Unit (Option (List Char))
  | [], _, best => .ok best
  | f :: fs, minD, best =>
    if hasPre (lmPre lang) f then
      match parseBoundsOf f with
      | none => .error ()
      | some ds =>
        let d := distSq req ds
        if ltInf d minD then findClosest req lang fs (some d) (some f)
        else findClosest req lang fs minD best
    else findClosest req lang fs minD best

/-- First record stored under a file name. -/
def lookupLm : List LmFile → List Char → Option CacheRecord
  | [], _ => none
  | e :: es, f => if e.name = f then some e.content else lookupLm es f

/-- The in-place image preference applied to each returned landmark:
`if 'cached_image' in landmark: landmark['image_url'] = landmark['cached_image']`. -/
def rewriteCached (lm : Landmark) : Landmark :=
  match lm.cached_image with
  | some c => { lm with image_url := some c }
  | none => lm

/-- OfflineCacheManager.get_cached_landmarks. The body is wrapped in a
try/except returning []: a parse error in the loop, the NameError on
cache_data when no file matched, or a failed open, all yield []. Otherwise
the best record is returned when it is fresh and its stored language
matches, else []. -/
def get_cached_landmarks (st : SysState) (b : Bounds) (lang : List Char)
    (max_age_hours now : ℚ) : List Landmark :=
  match findClosest (boundsList b) lang (st.lmFiles.map LmFile.name) none none with
  | .error _ => []
  | .ok none => []
  | .ok (some f) =>
    match lookupLm st.lmFiles f with
    | none => []
    | some r =>
      if (now - r.timestamp) / 3600 ≤ max_age_hours ∧ r.language = lang then
        r.landmarks.map rewriteCached
      else []

/-! ### Image cache -/

/-- First content stored under an image file name. -/
def lookupImg : List ImgFile → String → Option String
  | [], _ => none
  | e :: es, f => if e.name = f then some e.content else lookupImg es f

/-- Write (overwrite in place, else append) an image file. -/
def writeImg : List ImgFile → String → String → ℚ → List ImgFile
  | [], f, c, now => [⟨f, c, now⟩]
  | e :: es, f, c, now =>
    if e.name = f then ⟨f, c, now⟩ :: es else e :: writeImg es f c now

/-- os.remove of an image file. -/
def removeImg : List ImgFile → String → List ImgFile
  | [], _ => []
  | e :: es, f => if e.name = f then es else e :: removeImg es f

/-- The content-addressed image file name `{md5(url)}.jpg`. -/
def imgPath (o : ImageOracle) (url : String) : String :=
  o.md5hex url ++ ".jpg"

/-- OfflineCacheManager._cache_image. Returns the result string (the empty
string models every failure), the updated images directory, and the number
of network requests issued. Order as in the source: derive the name from
the MD5 of the URL, check the URL with the validator, reuse a valid
existing file, otherwise download; on HTTP 200 write the body then
validate the written file, deleting it when invalid; a non-200 status or a
raised request exception yields the empty string. -/
def cacheImage (o : ImageOracle) (imgs : List ImgFile) (url : String) (now : ℚ) :
    String × List ImgFile × ℕ :=
  let filename := imgPath o url
  if (o.validate_image_url url).1 = false then ("", imgs, 0)
  else
    let download : String × List ImgFile × ℕ :=
      match o.http_get url with
      | some (code, body) =>
        if code = 200 then
          let imgs2 := writeImg imgs filename body now
          if (o.validate_content body).1 then (filename, imgs2, 1)
          else ("", removeImg imgs2 filename, 1)
        else ("", imgs, 1)
      | none => ("", imgs, 1)
    match lookupImg imgs filename with
    | some c => if (o.validate_content c).1 then (filename, imgs, 0) else download
    | none => download

/-! ### Landmark cache store: write path -/

/-- Write (overwrite in place, else append) a landmarks file. -/
def writeLm : List LmFile → List Char → CacheRecord → ℚ → List LmFile
  | [], f, r, now => [⟨f, r, now⟩]
  | e :: es, f, r, now =>
    if e.name = f then ⟨f, r, now⟩ :: es else e :: writeLm es f r now

/-- The landmark loop of cache_landmarks: copy each landmark and, when its
image_url entry is present and truthy, try the image cache, replacing the
entry only on success; threads the images directory through the calls. -/
def processLms (o : ImageOracle) (now : ℚ) :
    List Landmark → List ImgFile → List Landmark × List ImgFile
  | [], imgs => ([], imgs)
  | lm :: rest, imgs =>
    match lm.image_url with
    | some u =>
      if u ≠ "" then
        let r := cacheImage o imgs u now
        let lm2 := if r.1 ≠ "" then { lm with image_url := some r.1 } else lm
        let t := processLms o now rest r.2.1
        (lm2 :: t.1, t.2)
      else
        let t := processLms o now rest imgs
        (lm :: t.1, t.2)
    | none =>
      let t := processLms o now rest imgs
      (lm :: t.1, t.2)

/-- OfflineCacheManager.cache_landmarks: cache the images, persist the
record under the rounded cache key, then refresh the session statistics by
counting the directory entries and stamping the current time. -/
def cache_landmarks (o : ImageOracle) (st : SysState) (landmarks : List Landmark)
    (b : Bounds) (lang : List Char) (now : ℚ) : SysState :=
  let name := lmFileName lang b
  let pr := processLms o now landmarks st.imgFiles
  let lm2 := writeLm st.lmFiles name
    { landmarks := pr.1, timestamp := now, bounds := b, language := lang } now
  { lmFiles := lm2
    imgFiles := pr.2
    stats :=
      { landmarks_cached := lm2.length
        images_cached := pr.2.length
        last_update := some now } }

/-- OfflineCacheManager.clear_old_cache: delete every landmark and image
file whose modification time is older than the age threshold; the session
statistics are not touched. -/
def clear_old_cache (st : SysState) (max_age_hours now : ℚ) : SysState :=
  { st with
    lmFiles := st.lmFiles.filter
      (fun e => if e.mtime < now - max_age_hours * 3600 then false else true)
    imgFiles := st.imgFiles.filter
      (fun e => if e.mtime < now - max_age_hours * 3600 then false else true) }

/-- OfflineCacheManager.get_cache_stats: returns the session-state
dictionary as is. -/
def get_cache_stats (st : SysState) : Stats := st.stats

/-! ### Orchestrators

Two distinct functions named get_landmarks exist: the one defined in
src/cache_manager.py (imported by main.py and bound at the call sites,
since the redefinition in main.py only executes after them) and the one
defined at the bottom of src/main.py. The selected fetch source invocation
is passed as an `Except` value; the Bool of the result records whether the
fetch source was invoked. -/

/-- get_landmarks of src/cache_manager.py: at zoom at least 8 fetch,
cache a non-empty result, return it; a raised fetch exception is caught
and answered from the cache store; below zoom 8 serve from the cache
store (default freshness 24 hours). -/
def cm_get_landmarks (o : ImageOracle) (fetch : Except Unit (List Landmark))
    (st : SysState) (b : Bounds) (zoom : ℤ) (lang : List Char) (now : ℚ) :
    List Landmark × SysState × Bool :=
  if 8 ≤ zoom then
    match fetch with
    | .ok lms =>
      let st2 := if lms ≠ [] then cache_landmarks o st lms b lang now else st
      (lms, st2, true)
    | .error _ => (get_cached_landmarks st b lang 24 now, st, true)
  else
    (get_cached_landmarks st b lang 24 now, st, false)

/-- get_landmarks of src/main.py: in offline mode serve from the cache
store without fetching; online, at zoom at least 8 fetch, cache a
non-empty result and return it, catching a raised fetch exception by
falling back to the cache store when offline and to [] otherwise; below
zoom 8 return []. -/
def main_get_landmarks (o : ImageOracle) (offline : Bool)
    (fetch : Except Unit (List Landmark)) (st : SysState) (b : Bounds)
    (zoom : ℤ) (lang : List Char) (now : ℚ) :
    List Landmark × SysState × Bool :=
  if offline then (get_cached_landmarks st b lang 24 now, st, false)
  else if 8 ≤ zoom then
    match fetch with
    | .ok lms =>
      let st2 := if lms ≠ [] then cache_landmarks o st lms b lang now else st
      (lms, st2, true)
    | .error _ =>
      (if offline then get_cached_landmarks st b lang 24 now else [], st, true)
  else ([], st, false)

/-! ### Specification-side predicates and concrete fixtures -/

/-- The CachedImage invariant of the specification: whatever is stored at
an image path decodes as a valid image (absence is allowed). -/
def validOrAbsent (o : ImageOracle) (imgs : List ImgFile) (n : String) : Prop :=
  ∀ c, lookupImg imgs n = some c → (o.validate_content c).1 = true

/-- A benign collaborator oracle for concrete runs: every URL passes the
validator, every request returns status 200 with body IMG, every content
validates, and the hash is the identity. -/
def oracle0 : ImageOracle :=
  { validate_image_url := fun _ => (true, "")
    http_get := fun _ => some (200, "IMG")
    validate_content := fun _ => (true, "")
    md5hex := fun u => u }

/-- Landmark fixture without an image. -/
def lm1 : Landmark := ⟨none, none, "one"⟩

/-- Second landmark fixture without an image. -/
def lm2 : Landmark := ⟨none, none, "two"⟩

/-- Landmark fixture with a remote image URL. -/
def lmImg : Landmark := ⟨some "http://x/img", none, "pic"⟩

/-- The viewport (0, 0, 1, 1). -/
def b11 : Bounds := ⟨0, 0, 1, 1⟩

/-- Record fixture: [lm1] fetched at time 0 for b11, language en. -/
def rec1 : CacheRecord := ⟨[lm1], 0, b11, "en".toList⟩

/-- A store holding exactly the record rec1 under its rounded key. -/
def stOne : SysState :=
  ⟨[⟨"landmarks_en_0.0_0.0_1.0_1.0.json".toList, rec1, 0⟩], [], ⟨1, 0, some 0⟩⟩

/-- The empty store. -/
def st0 : SysState := ⟨[], [], ⟨0, 0, none⟩⟩

/-- Record at bounds (0, 0, 0, 100): east is far from the origin but the
first three coordinates sit on it. -/
def recA : CacheRecord := ⟨[lm1], 0, ⟨0, 0, 0, 100⟩, "en".toList⟩

/-- Record at bounds (0, 0, 1, 0): overall the closest to the origin in
the four-coordinate metric. -/
def recB : CacheRecord := ⟨[lm2], 0, ⟨0, 0, 1, 0⟩, "en".toList⟩

/-- A store holding recB then recA in enumeration order. -/
def stPair : SysState :=
  ⟨[⟨"landmarks_en_0.0_0.0_1.0_0.0.json".toList, recB, 0⟩,
    ⟨"landmarks_en_0.0_0.0_0.0_100.0.json".toList, recA, 0⟩], [], ⟨2, 0, none⟩⟩

/-- A store holding a valid fresh record of language fr together with a
record stored under language fr_CA, whose file name also starts with
landmarks_fr_ and whose third underscore token CA is not a float. -/
def stMixed : SysState :=
  ⟨[⟨"landmarks_fr_0.0_0.0_1.0_1.0.json".toList, ⟨[lm1], 0, b11, "fr".toList⟩, 0⟩,
    ⟨"landmarks_fr_CA_0.0_0.0_1.0_1.0.json".toList, ⟨[lm2], 0, b11, "fr_CA".toList⟩, 0⟩],
   [], ⟨2, 0, none⟩⟩

/-! ### Helper lemmas -/

/-- The image preference pass is the identity on landmarks without a
cached_image entry. -/
theorem mapRewrite_eq {lms : List Landmark}
    (h : ∀ lm ∈ lms, lm.cached_image = none) :
    lms.map rewriteCached = lms := by
  induction lms with
  | nil => rfl
  | cons hd tl ih =>
    have hhd : hd.cached_image = none := h hd (by simp)
    have htl : ∀ lm ∈ tl, lm.cached_image = none := fun lm hm => h lm (by simp [hm])
    simp [rewriteCached, hhd, ih htl]

/-- The selection loop raises as soon as some file of matching language
has an unparseable bounds token, whatever the accumulator holds. -/
theorem findClosest_err (req : List ℚ) (lang : List Char)
    (l : List (List Char)) (f : List Char)
    (hmem : f ∈ l) (hpre : hasPre (lmPre lang) f = true)
    (hbad : parseBoundsOf f = none) :
    ∀ minD best, findClosest req lang l minD best = .error () := by
  induction l with
  | nil => cases hmem
  | cons hd tl ih =>
    intro minD best
    rcases List.mem_cons.mp hmem with heq | htl
    · subst heq
      simp [findClosest, hpre, hbad]
    · by_cases hp : hasPre (lmPre lang) hd = true
      · cases hparse : parseBoundsOf hd with
        | none => simp [findClosest, hp, hparse]
        | some ds =>
          simp only [findClosest, hp, hparse, if_true]
          split
          · exact ih htl _ _
          · exact ih htl _ _
      · simp only [findClosest]
        rw [if_neg hp]
        exact ih htl _ _

/-- lookupImg finds the content just written under the same name. -/
theorem lookupImg_writeImg (l : List ImgFile) (n c : String) (now : ℚ) :
    lookupImg (writeImg l n c now) n = some c := by
  induction l with
  | nil => simp [writeImg, lookupImg]
  | cons hd tl ih =>
    by_cases h : hd.name = n
    · simp [writeImg, lookupImg, h]
    · simp [writeImg, lookupImg, h, ih]

/-- Writing a fresh image file and deleting it restores the directory. -/
theorem removeImg_writeImg (l : List ImgFile) (n c : String) (now : ℚ)
    (h : lookupImg l n = none) :
    removeImg (writeImg l n c now) n = l := by
  induction l with
  | nil => simp [writeImg, removeImg]
  | cons hd tl ih =>
    by_cases hn : hd.name = n
    · simp [lookupImg, hn] at h
    · rw [lookupImg, if_neg hn] at h
      simp [writeImg, removeImg, hn, ih h]

/-! ### Claim theorems -/

/-- Claim C1 (code bug evaluation). On the store stPair and the request
(0, 0, 0, 0) with language en, the record recB is strictly closer than
recA in the squared distance over all four boundary coordinates, yet
get_cached_landmarks returns the landmarks of recA: the parse
cache_file.split(under)[2:-1] leaves the east token fused with the .json
suffix and drops it, so the selection minimises over (south, west, north)
only. -/
theorem claim_C1_code_divergence :
    get_cached_landmarks stPair ⟨0, 0, 0, 0⟩ "en".toList 24 0 = [lm1] ∧
    distSq (boundsList ⟨0, 0, 0, 0⟩) (boundsList recB.bounds) <
      distSq (boundsList ⟨0, 0, 0, 0⟩) (boundsList recA.bounds) ∧
    recA.landmarks = [lm1] ∧ recB.landmarks = [lm2] ∧ lm1 ≠ lm2 := by
  refine ⟨by decide, by decide, by decide, by decide, by decide⟩

/-- Claim C2 (counterexample). With offline mode off and zoom 5, the
get_landmarks bound at the call sites (the one of src/cache_manager.py)
does not return the empty list: on the store stOne it answers with the
cached record. -/
theorem claim_C2_counterexample :
    cm_get_landmarks oracle0 (.ok []) stOne b11 5 "en".toList 0 =
      ([lm1], stOne, false) ∧ ([lm1] : List Landmark) ≠ [] := by
  exact ⟨by decide, by decide⟩

/-- Claim C2 (amended). Online below the zoom threshold 8 neither
get_landmarks invokes a fetch source; the one of src/main.py returns the
empty list as the claim states, while the one of src/cache_manager.py
instead returns the cache-store lookup for the same bounds and language. -/
theorem claim_C2_amended (o : ImageOracle) (fetch : Except Unit (List Landmark))
    (st : SysState) (b : Bounds) (zoom : ℤ) (lang : List Char) (now : ℚ)
    (hz : zoom < 8) :
    main_get_landmarks o false fetch st b zoom lang now = ([], st, false) ∧
    cm_get_landmarks o fetch st b zoom lang now =
      (get_cached_landmarks st b lang 24 now, st, false) := by
  have h8 : ¬ (8 ≤ zoom) := by omega
  constructor
  · simp [main_get_landmarks, h8]
  · simp [cm_get_landmarks, h8]

/-- Claim C2 (witness for the amended theorem at zoom 5). -/
theorem claim_C2_amended_witness :
    (5 : ℤ) < 8 ∧
    main_get_landmarks oracle0 false (.ok []) stOne b11 5 "en".toList 0 =
      ([], stOne, false) :=
  ⟨by decide,
   (claim_C2_amended oracle0 (.ok []) stOne b11 5 "en".toList 0 (by decide)).1⟩

/-- Claim C3 (counterexample). At zoom 8 the get_landmarks of
src/cache_manager.py (the binding in effect at the call sites) invokes
the fetch source and returns its result, though the offline flag of the
session may be set: the function never consults it, and its answer
differs from the cache-store lookup. -/
theorem claim_C3_counterexample :
    (cm_get_landmarks oracle0 (.ok [lm2]) st0 b11 8 "en".toList 0).2.2 = true ∧
    (cm_get_landmarks oracle0 (.ok [lm2]) st0 b11 8 "en".toList 0).1 = [lm2] ∧
    get_cached_landmarks st0 b11 "en".toList 24 0 = [] ∧
    ([lm2] : List Landmark) ≠ [] := by
  exact ⟨by decide, by decide, by decide, by decide⟩

/-- Claim C3 (amended). The get_landmarks of src/main.py does behave as
the claim states: with offline mode on it returns exactly the cache-store
get for the same bounds and language and never invokes a fetch source.
The get_landmarks of src/cache_manager.py takes no offline flag at all
and invokes the selected fetch source whenever zoom is at least 8. -/
theorem claim_C3_amended (o : ImageOracle) (fetch : Except Unit (List Landmark))
    (st : SysState) (b : Bounds) (zoom : ℤ) (lang : List Char) (now : ℚ)
    (hz : 8 ≤ zoom) :
    main_get_landmarks o true fetch st b zoom lang now =
      (get_cached_landmarks st b lang 24 now, st, false) ∧
    (cm_get_landmarks o fetch st b zoom lang now).2.2 = true := by
  constructor
  · simp [main_get_landmarks]
  · cases fetch with
    | ok lms => simp [cm_get_landmarks, hz]
    | error e => simp [cm_get_landmarks, hz]

/-- Claim C3 (witness for the amended theorem at zoom 8). -/
theorem claim_C3_amended_witness :
    (8 : ℤ) ≤ 8 ∧
    main_get_landmarks oracle0 true (.ok [lm2]) stOne b11 8 "en".toList 0 =
      (get_cached_landmarks stOne b11 "en".toList 24 0, stOne, false) :=
  ⟨by decide,
   (claim_C3_amended oracle0 (.ok [lm2]) stOne b11 8 "en".toList 0 (by decide)).1⟩

/-- Claim C4 (counterexample). When the fetch source raises at zoom 8,
the get_landmarks of src/cache_manager.py (the binding in effect at the
call sites, which never reads the offline flag) falls back to the cache
store and returns its non-empty answer instead of the empty list the
claim prescribes for online mode. -/
theorem claim_C4_counterexample :
    cm_get_landmarks oracle0 (.error ()) stOne b11 8 "en".toList 0 =
      ([lm1], stOne, true) ∧ ([lm1] : List Landmark) ≠ [] := by
  exact ⟨by decide, by decide⟩

/-- Claim C4 (amended). A raised fetch-source exception is always caught
(both orchestrators are total and return the fallback below). The
get_landmarks of src/main.py then returns [] online, and never invokes
the source offline, answering the cache-store get; the get_landmarks of
src/cache_manager.py answers the cache-store get unconditionally, since
it has no offline flag. -/
theorem claim_C4_amended (o : ImageOracle) (st : SysState) (b : Bounds)
    (zoom : ℤ) (lang : List Char) (now : ℚ) (hz : 8 ≤ zoom) :
    main_get_landmarks o false (.error ()) st b zoom lang now = ([], st, true) ∧
    main_get_landmarks o true (.error ()) st b zoom lang now =
      (get_cached_landmarks st b lang 24 now, st, false) ∧
    cm_get_landmarks o (.error ()) st b zoom lang now =
      (get_cached_landmarks st b lang 24 now, st, true) := by
  refine ⟨?_, ?_, ?_⟩
  · simp [main_get_landmarks, hz]
  · simp [main_get_landmarks]
  · simp [cm_get_landmarks, hz]

/-- Claim C4 (witness for the amended theorem at zoom 8). -/
theorem claim_C4_amended_witness :
    (8 : ℤ) ≤ 8 ∧
    main_get_landmarks oracle0 false (.error ()) stOne b11 8 "en".toList 0 =
      ([], stOne, true) :=
  ⟨by decide,
   (claim_C4_amended oracle0 stOne b11 8 "en".toList 0 (by decide)).1⟩

/-- Claim C5 (counterexample). get_cache_stats does not recompute: after
clear_old_cache deletes the only record file of stOne, the statistics
still report one cached landmark record while the directory is empty. -/
theorem claim_C5_counterexample :
    (get_cache_stats (clear_old_cache stOne 24 100000)).landmarks_cached = 1 ∧
    (clear_old_cache stOne 24 100000).lmFiles.length = 0 ∧ (1 : ℕ) ≠ 0 := by
  exact ⟨by decide, by decide, by decide⟩

/-- Claim C5 (amended). get_cache_stats returns the session-state
statistics snapshot. That snapshot is refreshed only by cache_landmarks,
which recounts both directories after writing and stamps the write time;
clear_old_cache deletes files without touching the snapshot, so the
reported counts can be stale until the next cache_landmarks. -/
theorem claim_C5_amended (st : SysState) (max_age now : ℚ) (o : ImageOracle)
    (lms : List Landmark) (b : Bounds) (lang : List Char) (now2 : ℚ) :
    get_cache_stats (clear_old_cache st max_age now) = get_cache_stats st ∧
    get_cache_stats (cache_landmarks o st lms b lang now2) =
      ⟨(cache_landmarks o st lms b lang now2).lmFiles.length,
       (cache_landmarks o st lms b lang now2).imgFiles.length, some now2⟩ := by
  exact ⟨rfl, rfl⟩

/-- Claim C7 (confirmed). Whenever the selection loop of
get_cached_landmarks picks a stored record of the requested language, the
result is [] when the record age (now minus its timestamp, in hours)
exceeds max_age_hours, with no fallback to any other record, and is the
record landmark list when the age does not exceed max_age_hours. -/
theorem claim_C7 (st : SysState) (b : Bounds) (lang : List Char)
    (max_age now : ℚ) (f : List Char) (r : CacheRecord)
    (h1 : findClosest (boundsList b) lang (st.lmFiles.map LmFile.name) none none
      = .ok (some f))
    (h2 : lookupLm st.lmFiles f = some r)
    (h3 : r.language = lang)
    (h4 : ∀ lm ∈ r.landmarks, lm.cached_image = none) :
    (max_age < (now - r.timestamp) / 3600 →
      get_cached_landmarks st b lang max_age now = []) ∧
    ((now - r.timestamp) / 3600 ≤ max_age →
      get_cached_landmarks st b lang max_age now = r.landmarks) := by
  have hget : get_cached_landmarks st b lang max_age now =
      if (now - r.timestamp) / 3600 ≤ max_age ∧ r.language = lang then
        r.landmarks.map rewriteCached
      else [] := by
    simp only [get_cached_landmarks, h1, h2]
  constructor
  · intro hgt
    rw [hget, if_neg]
    rintro ⟨hle, -⟩
    exact absurd hle (not_le.mpr hgt)
  · intro hle
    rw [hget, if_pos ⟨hle, h3⟩, mapRewrite_eq h4]

/-- Claim C7 (witness): on the store stOne the selection picks rec1; at
age 25 hours with the default threshold 24 the result is empty. -/
theorem claim_C7_witness :
    (24 : ℚ) < ((25 * 3600 : ℚ) - rec1.timestamp) / 3600 ∧
    get_cached_landmarks stOne b11 "en".toList 24 (25 * 3600) = [] :=
  ⟨by decide,
   (claim_C7 stOne b11 "en".toList 24 (25 * 3600)
      "landmarks_en_0.0_0.0_1.0_1.0.json".toList rec1
      (by decide) (by decide) (by decide) (by decide)).1 (by decide)⟩

/-- Claim C10 (confirmed). If any file of the landmarks directory starts
with the landmarks_{language}_ filter but has an underscore token in the
bounds positions that float() rejects, the whole enumeration of
get_cached_landmarks raises and the call returns the empty list, whatever
else the directory holds. -/
theorem claim_C10 (st : SysState) (b : Bounds) (lang : List Char)
    (max_age now : ℚ) (f : List Char)
    (hmem : f ∈ st.lmFiles.map LmFile.name)
    (hpre : hasPre (lmPre lang) f = true)
    (hbad : parseBoundsOf f = none) :
    get_cached_landmarks st b lang max_age now = [] := by
  rw [get_cached_landmarks,
    findClosest_err (boundsList b) lang _ f hmem hpre hbad none none]

/-- Claim C10 (witness): requesting language fr over stMixed, whose file
landmarks_fr_CA_0.0_0.0_1.0_1.0.json matches the landmarks_fr_ filter but
has the unparseable token CA, returns [] although the fresh valid record
landmarks_fr_0.0_0.0_1.0_1.0.json is also present. -/
theorem claim_C10_witness :
    "landmarks_fr_CA_0.0_0.0_1.0_1.0.json".toList
        ∈ stMixed.lmFiles.map LmFile.name ∧
    hasPre (lmPre "fr".toList) "landmarks_fr_CA_0.0_0.0_1.0_1.0.json".toList
        = true ∧
    parseBoundsOf "landmarks_fr_CA_0.0_0.0_1.0_1.0.json".toList = none ∧
    get_cached_landmarks stMixed b11 "fr".toList 24 0 = [] :=
  ⟨by decide, by decide, by decide,
   claim_C10 stMixed b11 "fr".toList 24 0
     "landmarks_fr_CA_0.0_0.0_1.0_1.0.json".toList
     (by decide) (by decide) (by decide)⟩

/-- Claim C8 (confirmed). For every oracle, images directory, URL and
time: (1) if the file at the derived content-addressed path was valid or
absent before the call it is valid or absent after it; (2) a non-empty
result of _cache_image is the derived path and the file stored there
passed validation; (3) an invalid existing file is never returned as is:
a non-empty result in that situation means a fresh download happened,
with an HTTP 200 body that replaced the file content and validated. -/
theorem claim_C8 (o : ImageOracle) (imgs : List ImgFile) (url : String) (now : ℚ) :
    (validOrAbsent o imgs (imgPath o url) →
      validOrAbsent o (cacheImage o imgs url now).2.1 (imgPath o url)) ∧
    ((cacheImage o imgs url now).1 ≠ "" →
      (cacheImage o imgs url now).1 = imgPath o url ∧
      ∃ c, lookupImg (cacheImage o imgs url now).2.1 (imgPath o url) = some c ∧
        (o.validate_content c).1 = true) ∧
    (∀ c0, lookupImg imgs (imgPath o url) = some c0 →
      (o.validate_content c0).1 = false →
      (cacheImage o imgs url now).1 ≠ "" →
      ∃ body, o.http_get url = some (200, body) ∧
        (o.validate_content body).1 = true ∧
        lookupImg (cacheImage o imgs url now).2.1 (imgPath o url) = some body) := by
  by_cases hv : (o.validate_image_url url).1 = false
  · have hr : cacheImage o imgs url now = ("", imgs, 0) := by
      simp [cacheImage, hv]
    refine ⟨?_, ?_, ?_⟩
    · rw [hr]; exact id
    · rw [hr]; intro h; exact absurd rfl h
    · intro c0 _ _ h; rw [hr] at h; exact absurd rfl h
  · have hv2 : (o.validate_image_url url).1 = true := by
      cases hb : (o.validate_image_url url).1 with
      | false => exact absurd hb hv
      | true => rfl
    cases hl : lookupImg imgs (imgPath o url) with
    | some c =>
      by_cases hcv : (o.validate_content c).1 = true
      · have hr : cacheImage o imgs url now = (imgPath o url, imgs, 0) := by
          simp [cacheImage, hv2, hl, hcv]
        refine ⟨?_, ?_, ?_⟩
        · rw [hr]; exact id
        · rw [hr]; intro h2; exact ⟨rfl, c, hl, hcv⟩
        · intro c0 hc0 hinv h2
          cases hc0
          rw [hinv] at hcv
          exact absurd hcv Bool.false_ne_true
      · have hcv2 : (o.validate_content c).1 = false := by
          cases hb : (o.validate_content c).1 with
          | true => exact absurd hb hcv
          | false => rfl
        cases hh : o.http_get url with
        | none =>
          have hr : cacheImage o imgs url now = ("", imgs, 1) := by
            simp [cacheImage, hv2, hl, hcv2, hh]
          refine ⟨?_, ?_, ?_⟩
          · rw [hr]; exact id
          · rw [hr]; intro h2; exact absurd rfl h2
          · intro c0 _ _ h2; rw [hr] at h2; exact absurd rfl h2
        | some pr =>
          obtain ⟨code, body⟩ := pr
          by_cases hcode : code = 200
          · subst hcode
            by_cases hbv : (o.validate_content body).1 = true
            · have hr : cacheImage o imgs url now =
                  (imgPath o url, writeImg imgs (imgPath o url) body now, 1) := by
                simp [cacheImage, hv2, hl, hcv2, hh, hbv]
              refine ⟨?_, ?_, ?_⟩
              · intro hva
                exact absurd (hva c hl) (by rw [hcv2]; exact Bool.false_ne_true)
              · rw [hr]
                intro h2
                exact ⟨rfl, body, lookupImg_writeImg imgs (imgPath o url) body now, hbv⟩
              · intro c0 hc0 hinv h2
                rw [hr]
                exact ⟨body, rfl, hbv, lookupImg_writeImg imgs (imgPath o url) body now⟩
            · have hbv2 : (o.validate_content body).1 = false := by
                cases hb : (o.validate_content body).1 with
                | true => exact absurd hb hbv
                | false => rfl
              have hr : cacheImage o imgs url now =
                  ("", removeImg (writeImg imgs (imgPath o url) body now)
                    (imgPath o url), 1) := by
                simp [cacheImage, hv2, hl, hcv2, hh, hbv2]
              refine ⟨?_, ?_, ?_⟩
              · intro hva
                exact absurd (hva c hl) (by rw [hcv2]; exact Bool.false_ne_true)
              · rw [hr]; intro h2; exact absurd rfl h2
              · intro c0 _ _ h2; rw [hr] at h2; exact absurd rfl h2
          · have hr : cacheImage o imgs url now = ("", imgs, 1) := by
              simp [cacheImage, hv2, hl, hcv2, hh, hcode]
            refine ⟨?_, ?_, ?_⟩
            · rw [hr]; exact id
            · rw [hr]; intro h2; exact absurd rfl h2
            · intro c0 _ _ h2; rw [hr] at h2; exact absurd rfl h2
    | none =>
      cases hh : o.http_get url with
      | none =>
        have hr : cacheImage o imgs url now = ("", imgs, 1) := by
          simp [cacheImage, hv2, hl, hh]
        refine ⟨?_, ?_, ?_⟩
        · rw [hr]; exact id
        · rw [hr]; intro h2; exact absurd rfl h2
        · intro c0 hc0 _ _; cases hc0
      | some pr =>
        obtain ⟨code, body⟩ := pr
        by_cases hcode : code = 200
        · subst hcode
          by_cases hbv : (o.validate_content body).1 = true
          · have hr : cacheImage o imgs url now =
                (imgPath o url, writeImg imgs (imgPath o url) body now, 1) := by
              simp [cacheImage, hv2, hl, hh, hbv]
            refine ⟨?_, ?_, ?_⟩
            · intro hva
              rw [hr]
              intro c2 hc2
              rw [lookupImg_writeImg imgs (imgPath o url) body now] at hc2
              cases hc2
              exact hbv
            · rw [hr]
              intro h2
              exact ⟨rfl, body, lookupImg_writeImg imgs (imgPath o url) body now, hbv⟩
            · intro c0 hc0 _ _; cases hc0
          · have hbv2 : (o.validate_content body).1 = false := by
              cases hb : (o.validate_content body).1 with
              | true => exact absurd hb hbv
              | false => rfl
            have hr : cacheImage o imgs url now =
                ("", removeImg (writeImg imgs (imgPath o url) body now)
                  (imgPath o url), 1) := by
              simp [cacheImage, hv2, hl, hh, hbv2]
            refine ⟨?_, ?_, ?_⟩
            · intro hva
              rw [hr]
              rw [show (("", removeImg (writeImg imgs (imgPath o url) body now)
                  (imgPath o url), 1) : String × List ImgFile × ℕ).2.1 =
                removeImg (writeImg imgs (imgPath o url) body now)
                  (imgPath o url) from rfl]
              rw [removeImg_writeImg imgs (imgPath o url) body now hl]
              exact hva
            · rw [hr]; intro h2; exact absurd rfl h2
            · intro c0 hc0 _ _; cases hc0
        · have hr : cacheImage o imgs url now = ("", imgs, 1) := by
            simp [cacheImage, hv2, hl, hh, hcode]
          refine ⟨?_, ?_, ?_⟩
          · rw [hr]; exact id
          · rw [hr]; intro h2; exact absurd rfl h2
          · intro c0 hc0 _ _; cases hc0

/-- Claim C8 (witness): with the benign oracle and an empty directory,
_cache_image of u succeeds and the stored file validates. -/
theorem claim_C8_witness :
    (cacheImage oracle0 [] "u" 0).1 = imgPath oracle0 "u" ∧
    ∃ c, lookupImg (cacheImage oracle0 [] "u" 0).2.1 (imgPath oracle0 "u")
        = some c ∧ (oracle0.validate_content c).1 = true :=
  (claim_C8 oracle0 [] "u" 0).2.1 (by decide)

/-- Claim C9 (confirmed). For a URL whose derived path is absent and
whose first _cache_image call succeeds, that first call issued exactly
one network request, and a second call issues none and returns the same
path with the directory unchanged. -/
theorem claim_C9 (o : ImageOracle) (imgs : List ImgFile) (url : String)
    (now1 now2 : ℚ)
    (h0 : lookupImg imgs (imgPath o url) = none)
    (h1 : (cacheImage o imgs url now1).1 ≠ "") :
    (cacheImage o imgs url now1).2.2 = 1 ∧
    cacheImage o (cacheImage o imgs url now1).2.1 url now2 =
      ((cacheImage o imgs url now1).1, (cacheImage o imgs url now1).2.1, 0) := by
  by_cases hv : (o.validate_image_url url).1 = false
  · exact absurd (by simp [cacheImage, hv]) h1
  · have hv2 : (o.validate_image_url url).1 = true := by
      cases hb : (o.validate_image_url url).1 with
      | false => exact absurd hb hv
      | true => rfl
    cases hh : o.http_get url with
    | none => exact absurd (by simp [cacheImage, hv2, h0, hh]) h1
    | some pr =>
      obtain ⟨code, body⟩ := pr
      by_cases hcode : code = 200
      · subst hcode
        by_cases hbv : (o.validate_content body).1 = true
        · have hr : cacheImage o imgs url now1 =
              (imgPath o url, writeImg imgs (imgPath o url) body now1, 1) := by
            simp [cacheImage, hv2, h0, hh, hbv]
          refine ⟨by rw [hr], ?_⟩
          rw [hr]
          simp [cacheImage, hv2, lookupImg_writeImg, hbv]
        · have hbv2 : (o.validate_content body).1 = false := by
            cases hb : (o.validate_content body).1 with
            | true => exact absurd hb hbv
            | false => rfl
          exact absurd (by simp [cacheImage, hv2, h0, hh, hbv2]) h1
      · exact absurd (by simp [cacheImage, hv2, h0, hh, hcode]) h1

/-- Claim C9 (witness): with the benign oracle, caching u twice from an
empty directory downloads once then reuses the file. -/
theorem claim_C9_witness :
    lookupImg [] (imgPath oracle0 "u") = none ∧
    (cacheImage oracle0 [] "u" 0).2.2 = 1 ∧
    cacheImage oracle0 (cacheImage oracle0 [] "u" 0).2.1 "u" 1 =
      ((cacheImage oracle0 [] "u" 0).1, (cacheImage oracle0 [] "u" 0).2.1, 0) :=
  ⟨by decide, claim_C9 oracle0 [] "u" 0 1 (by decide) (by decide)⟩

/-! ### Print/parse lemmas for the cache key tokens -/

/-- digAux with enough fuel computes base-10 digits: reading them back
gives the number. -/
theorem ofDig_digAux (fuel : ℕ) : ∀ n ≤ fuel, ofDig (digAux fuel n) = n := by
  induction fuel with
  | zero =>
    intro n hn
    have : n = 0 := by omega
    subst this
    rfl
  | succ fuel ih =>
    intro n hn
    by_cases hz : n = 0
    · subst hz; simp [digAux, ofDig]
    · rw [digAux, if_neg hz, ofDig, ih (n / 10) (by omega)]
      omega

/-- Every digit produced by digAux is below 10. -/
theorem digAux_lt (fuel : ℕ) : ∀ n, ∀ d ∈ digAux fuel n, d < 10 := by
  induction fuel with
  | zero => intro n d hd; simp [digAux] at hd
  | succ fuel ih =>
    intro n d hd
    by_cases hz : n = 0
    · subst hz; simp [digAux] at hd
    · rw [digAux, if_neg hz] at hd
      rcases List.mem_cons.mp hd with h1 | h2
      · omega
      · exact ih _ d h2

/-- Nat.digitChar inverts to its digit for digits below 10. -/
theorem digitChar_val {d : ℕ} (h : d < 10) : (Nat.digitChar d).toNat - 48 = d := by
  interval_cases d <;> rfl

/-- Nat.digitChar yields a decimal digit character for digits below 10. -/
theorem digitChar_isDigit {d : ℕ} (h : d < 10) :
    (Nat.digitChar d).isDigit = true := by
  interval_cases d <;> rfl

/-- Horner evaluation after appending one character. -/
theorem parseNatChars_append_digit (l : List Char) (c : Char) :
    parseNatChars (l ++ [c]) = 10 * parseNatChars l + (c.toNat - 48) := by
  simp [parseNatChars, List.foldl_append]

/-- Reading back the reversed character rendering of a digit list. -/
theorem parseNatChars_rev (ds : List ℕ) (h : ∀ d ∈ ds, d < 10) :
    parseNatChars ((ds.map Nat.digitChar).reverse) = ofDig ds := by
  induction ds with
  | nil => rfl
  | cons d ds ih =>
    have hd : d < 10 := h d (by simp)
    have hds : ∀ x ∈ ds, x < 10 := fun x hx => h x (by simp [hx])
    simp only [List.map_cons, List.reverse_cons]
    rw [parseNatChars_append_digit, ih hds, digitChar_val hd, ofDig]
    omega

/-- The decimal rendering of a natural number parses back to it. -/
theorem parseNatChars_natChars (n : ℕ) : parseNatChars (natChars n) = n := by
  by_cases hz : n = 0
  · subst hz; rfl
  · rw [natChars, if_neg hz, natLE, parseNatChars_rev _ (digAux_lt n n),
      ofDig_digAux n n le_rfl]

/-- The decimal rendering of a natural number is all digit characters. -/
theorem natChars_digits (n : ℕ) : ∀ c ∈ natChars n, c.isDigit = true := by
  by_cases hz : n = 0
  · subst hz; intro c hc; simp [natChars] at hc; subst hc; rfl
  · rw [natChars, if_neg hz]
    intro c hc
    rw [List.mem_reverse] at hc
    obtain ⟨d, hd, rfl⟩ := List.mem_map.mp hc
    exact digitChar_isDigit (digAux_lt n n d hd)

/-- The decimal rendering of a natural number is never empty. -/
theorem natChars_ne_nil (n : ℕ) : natChars n ≠ [] := by
  by_cases hz : n = 0
  · subst hz; simp [natChars]
  · rw [natChars, if_neg hz]
    intro h
    have h2 : natLE n = [] := by
      have hlen := congrArg List.length h
      simp at hlen
      exact hlen
    have h3 := ofDig_digAux n n le_rfl
    rw [show digAux n n = natLE n from rfl, h2] at h3
    simp [ofDig] at h3
    exact hz h3.symm

/-- A list of digit characters cannot contain the underscore. -/
theorem notU_of_digits (l : List Char) (h : ∀ c ∈ l, c.isDigit = true) :
    '_' ∉ l := fun hm => absurd (h _ hm) (by decide)

/-- The three padded fraction digits parse back to the fraction. -/
theorem parseNatChars_pad3 (f : ℕ) (h : f < 1000) :
    parseNatChars (pad3 f) = f := by
  simp only [pad3, parseNatChars, List.foldl]
  rw [digitChar_val (by omega), digitChar_val (by omega), digitChar_val (by omega)]
  omega

/-- Dropping leading zeros of the reversed digit string does not change
the fraction value it denotes. -/
theorem dropZ_val (r : List Char) :
    (parseNatChars ((r.dropWhile (fun c => c = '0')).reverse) : ℚ) /
      (((10 : ℕ) ^ (r.dropWhile (fun c => c = '0')).length : ℕ) : ℚ) =
    (parseNatChars r.reverse : ℚ) / (((10 : ℕ) ^ r.length : ℕ) : ℚ) := by
  induction r with
  | nil => rfl
  | cons c r ih =>
    by_cases hc : c = '0'
    · subst hc
      rw [List.dropWhile_cons_of_pos (by rfl)]
      rw [ih]
      rw [List.reverse_cons, parseNatChars_append_digit]
      have hv : ('0' : Char).toNat - 48 = 0 := rfl
      rw [hv, Nat.add_zero, List.length_cons, pow_succ]
      push_cast
      rw [mul_comm ((10 : ℚ) ^ r.length) 10, mul_div_mul_left _ _ (by norm_num : (10 : ℚ) ≠ 0)]
    · rw [List.dropWhile_cons_of_neg (by simpa using hc)]

/-- The stripped fraction digits denote f/1000. -/
theorem frac_val (f : ℕ) (hf : f < 1000) :
    (parseNatChars (fracChars f) : ℚ) /
      (((10 : ℕ) ^ (fracChars f).length : ℕ) : ℚ) = (f : ℚ) / 1000 := by
  have key := dropZ_val ((pad3 f).reverse)
  rw [List.reverse_reverse, List.length_reverse, parseNatChars_pad3 f hf] at key
  have hlen3 : (pad3 f).length = 3 := rfl
  rw [hlen3] at key
  have hz : stripTrailZeros (pad3 f) =
      ((pad3 f).reverse.dropWhile (fun c => c = '0')).reverse := rfl
  simp only [fracChars]
  by_cases hs : stripTrailZeros (pad3 f) = []
  · rw [if_pos hs]
    rw [hz] at hs
    have hdw : (pad3 f).reverse.dropWhile (fun c => c = '0') = [] := by
      have := congrArg List.reverse hs
      simpa using this
    rw [hdw] at key
    norm_num [parseNatChars] at key
    rw [eq_comm, div_eq_zero_iff] at key
    rcases key with h | h
    · have h0 : parseNatChars ['0'] = 0 := rfl
      rw [h0, h]
      norm_num
    · norm_num at h
  · rw [if_neg hs, hz, List.length_reverse]
    exact key

/-- The stripped fraction digits are digit characters. -/
theorem fracChars_digits (f : ℕ) (hf : f < 1000) :
    ∀ c ∈ fracChars f, c.isDigit = true := by
  intro c hc
  simp only [fracChars] at hc
  by_cases hs : stripTrailZeros (pad3 f) = []
  · rw [if_pos hs] at hc
    simp at hc
    subst hc
    rfl
  · rw [if_neg hs] at hc
    have hsub : c ∈ pad3 f := by
      simp only [stripTrailZeros] at hc
      rw [List.mem_reverse] at hc
      have h2 := (List.dropWhile_sublist (l := (pad3 f).reverse)
        (p := fun c => c = '0')).subset hc
      rwa [List.mem_reverse] at h2
    simp only [pad3, List.mem_cons, List.not_mem_nil, or_false] at hsub
    rcases hsub with h | h | h
    · rw [h]; exact digitChar_isDigit (by omega)
    · rw [h]; exact digitChar_isDigit (by omega)
    · rw [h]; exact digitChar_isDigit (by omega)

/-- The stripped fraction digits are never empty. -/
theorem fracChars_ne_nil (f : ℕ) : fracChars f ≠ [] := by
  simp only [fracChars]
  by_cases hs : stripTrailZeros (pad3 f) = []
  · rw [if_pos hs]; simp
  · rw [if_neg hs]; exact hs

/-- takeWhile of a digit block followed by anything keeps the block. -/
theorem takeWhile_digits_append (a b : List Char)
    (h : ∀ c ∈ a, c.isDigit = true) :
    (a ++ b).takeWhile Char.isDigit = a ++ b.takeWhile Char.isDigit := by
  induction a with
  | nil => rfl
  | cons c cs ih =>
    have hc := h c (by simp)
    have hcs : ∀ x ∈ cs, x.isDigit = true := fun x hx => h x (by simp [hx])
    simp [List.takeWhile_cons, hc, ih hcs]

/-- dropWhile of a digit block followed by anything drops the block. -/
theorem dropWhile_digits_append (a b : List Char)
    (h : ∀ c ∈ a, c.isDigit = true) :
    (a ++ b).dropWhile Char.isDigit = b.dropWhile Char.isDigit := by
  induction a with
  | nil => rfl
  | cons c cs ih =>
    have hc := h c (by simp)
    have hcs : ∀ x ∈ cs, x.isDigit = true := fun x hx => h x (by simp [hx])
    simp [List.dropWhile_cons, hc, ih hcs]

/-- float() on digits, a dot and digits evaluates to the expected sum. -/
theorem parseUF_assemble (a d : List Char)
    (ha : ∀ c ∈ a, c.isDigit = true) (ha0 : a ≠ [])
    (hd : ∀ c ∈ d, c.isDigit = true) :
    parseUF (a ++ '.' :: d) =
      some ((parseNatChars a : ℚ) +
        (parseNatChars d : ℚ) / (((10 : ℕ) ^ d.length : ℕ) : ℚ)) := by
  have ht : (a ++ '.' :: d).takeWhile Char.isDigit = a := by
    rw [takeWhile_digits_append a _ ha]
    simp [List.takeWhile_cons]
  have hdr : (a ++ '.' :: d).dropWhile Char.isDigit = '.' :: d := by
    rw [dropWhile_digits_append a _ ha]
    simp [List.dropWhile_cons]
  simp only [parseUF, ht, hdr]
  rw [if_pos ⟨by rw [allDigits]; exact List.all_eq_true.mpr hd, Or.inl ha0⟩]

/-- float() ignores the sign alternatives when the string starts with a
digit. -/
theorem parseF_of_digit (c : Char) (rest : List Char) (h : c.isDigit = true) :
    parseF (c :: rest) = parseUF (c :: rest) := by
  have h1 : c ≠ '-' := by intro e; rw [e] at h; exact absurd h (by decide)
  have h2 : c ≠ '+' := by intro e; rw [e] at h; exact absurd h (by decide)
  rw [parseF.eq_def]
  split
  · next r heq => injection heq with e1 e2; exact absurd e1 h1
  · next r heq => injection heq with e1 e2; exact absurd e1 h2
  · rfl

/-- The unsigned rendering of n thousandths parses to n/1000. -/
theorem parseUF_core (n : ℕ) :
    parseUF (natChars (n / 1000) ++ '.' :: fracChars (n % 1000)) =
      some ((n : ℚ) / 1000) := by
  rw [parseUF_assemble _ _ (natChars_digits _) (natChars_ne_nil _)
    (fracChars_digits _ (by omega))]
  congr 1
  rw [parseNatChars_natChars, frac_val _ (by omega)]
  rw [eq_div_iff (by norm_num : (1000 : ℚ) ≠ 0)]
  have hcast := congrArg (Nat.cast : ℕ → ℚ) (Nat.div_add_mod n 1000)
  push_cast at hcast
  ring_nf
  linarith [hcast]

/-- The rendered token of k thousandths parses back to k/1000: the
composition float(str(round(b, 3))) is exact in the model. -/
theorem parseF_renderTh (k : ℤ) : parseF (renderTh k) = some ((k : ℚ) / 1000) := by
  by_cases hk : k < 0
  · rw [renderTh, if_pos hk]
    rw [show (['-'] ++ natChars (k.natAbs / 1000) ++
        '.' :: fracChars (k.natAbs % 1000)) =
        '-' :: (natChars (k.natAbs / 1000) ++
          '.' :: fracChars (k.natAbs % 1000)) by simp]
    rw [show parseF ('-' :: (natChars (k.natAbs / 1000) ++
        '.' :: fracChars (k.natAbs % 1000))) =
        (parseUF (natChars (k.natAbs / 1000) ++
          '.' :: fracChars (k.natAbs % 1000))).map (fun q => -q) from rfl]
    rw [parseUF_core k.natAbs]
    have hna : ((k.natAbs : ℚ)) = -(k : ℚ) := by
      have h2 : (k.natAbs : ℤ) = -k := by omega
      calc ((k.natAbs : ℚ)) = (((k.natAbs : ℤ) : ℚ)) := (Int.cast_natCast _).symm
        _ = (((-k : ℤ) : ℚ)) := by rw [h2]
        _ = -(k : ℚ) := Int.cast_neg k
    simp [hna, neg_div]
  · rw [renderTh, if_neg hk]
    simp only [List.nil_append]
    obtain ⟨c, cs, hcc⟩ :=
      List.exists_cons_of_ne_nil (natChars_ne_nil (k.natAbs / 1000))
    have hcd : c.isDigit = true := natChars_digits _ c (by rw [hcc]; simp)
    rw [show natChars (k.natAbs / 1000) ++ '.' :: fracChars (k.natAbs % 1000)
        = c :: (cs ++ '.' :: fracChars (k.natAbs % 1000)) by rw [hcc]; simp]
    rw [parseF_of_digit c _ hcd]
    rw [show c :: (cs ++ '.' :: fracChars (k.natAbs % 1000))
        = natChars (k.natAbs / 1000) ++ '.' :: fracChars (k.natAbs % 1000) by
      rw [hcc]; simp]
    rw [parseUF_core k.natAbs]
    congr 1
    have hna : ((k.natAbs : ℚ)) = (k : ℚ) := by
      have h2 : (k.natAbs : ℤ) = k := by omega
      calc ((k.natAbs : ℚ)) = (((k.natAbs : ℤ) : ℚ)) := (Int.cast_natCast _).symm
        _ = ((k : ℤ) : ℚ) := by rw [h2]
        _ = (k : ℚ) := rfl
    rw [hna]

/-! ### Filename split lemmas and the put/get round trip -/

/-- splitU never returns the empty list of chunks. -/
theorem splitU_ne_nil (l : List Char) : splitU l ≠ [] := by
  cases l with
  | nil => simp [splitU]
  | cons c rest =>
    simp only [splitU]
    cases splitU rest with
    | nil => simp
    | cons g gs =>
      by_cases hc : c = '_' <;> simp [hc]

/-- Splitting at the first underscore after an underscore-free block. -/
theorem splitU_append (a b : List Char) (ha : '_' ∉ a) :
    splitU (a ++ '_' :: b) = a :: splitU b := by
  induction a with
  | nil =>
    cases hs : splitU b with
    | nil => exact absurd hs (splitU_ne_nil b)
    | cons g gs => simp [splitU, hs]
  | cons c a ih =>
    have hc : c ≠ '_' := fun e => ha (by simp [e])
    have ha2 : '_' ∉ a := fun h => ha (by simp [h])
    simp [splitU, ih ha2, hc]

/-- An underscore-free string is a single chunk. -/
theorem splitU_noU (a : List Char) (ha : '_' ∉ a) : splitU a = [a] := by
  induction a with
  | nil => rfl
  | cons c a ih =>
    have hc : c ≠ '_' := fun e => ha (by simp [e])
    have ha2 : '_' ∉ a := fun h => ha (by simp [h])
    simp [splitU, ih ha2, hc]

/-- startswith holds on any extension of the same block. -/
theorem hasPre_append (p r : List Char) : hasPre p (p ++ r) = true := by
  induction p with
  | nil => rfl
  | cons c p ih => simp [hasPre, ih]

/-- No underscore occurs in a rendered float token. -/
theorem renderTh_noU (k : ℤ) : '_' ∉ renderTh k := by
  rw [renderTh]
  intro hm
  simp only [List.mem_append, List.mem_cons] at hm
  rcases hm with (h1 | h2) | (h3 | h4)
  · by_cases hk : k < 0
    · rw [if_pos hk] at h1; simp at h1
    · rw [if_neg hk] at h1; simp at h1
  · exact notU_of_digits _ (natChars_digits _) h2
  · cases h3
  · exact notU_of_digits _ (fracChars_digits _ (by omega)) h4

/-- Underscore-free concatenation. -/
theorem noU_append (a b : List Char) (ha : '_' ∉ a) (hb : '_' ∉ b) :
    '_' ∉ a ++ b := fun hm => (List.mem_append.mp hm).elim ha hb

/-- The written cache file name, decomposed at each underscore. -/
theorem lmFileName_decomp (lang : List Char) (b : Bounds) :
    lmFileName lang b = "landmarks".toList ++ '_' ::
      (lang ++ '_' :: (renderTh (roundTh b.south) ++ '_' ::
        (renderTh (roundTh b.west) ++ '_' :: (renderTh (roundTh b.north) ++ '_' ::
          (renderTh (roundTh b.east) ++ ".json".toList))))) := by
  have h10 : "landmarks_".toList = "landmarks".toList ++ ['_'] := by decide
  simp [lmFileName, boundsTokens, joinU, h10]

/-- Splitting the written name recovers exactly six chunks; the slice
[2:-1] then keeps the three tokens south, west, north and drops the east
token (still carrying .json), which all parse back exactly. -/
theorem parseBoundsOf_lmFileName (lang : List Char) (b : Bounds) (hU : '_' ∉ lang) :
    parseBoundsOf (lmFileName lang b) =
      some [((roundTh b.south : ℤ) : ℚ) / 1000, ((roundTh b.west : ℤ) : ℚ) / 1000,
        ((roundTh b.north : ℤ) : ℚ) / 1000] := by
  have hsplit : splitU (lmFileName lang b) =
      ["landmarks".toList, lang, renderTh (roundTh b.south),
        renderTh (roundTh b.west), renderTh (roundTh b.north),
        renderTh (roundTh b.east) ++ ".json".toList] := by
    rw [lmFileName_decomp]
    rw [splitU_append _ _ (by decide)]
    rw [splitU_append _ _ hU]
    rw [splitU_append _ _ (renderTh_noU _)]
    rw [splitU_append _ _ (renderTh_noU _)]
    rw [splitU_append _ _ (renderTh_noU _)]
    rw [splitU_noU _ (noU_append _ _ (renderTh_noU _) (by decide))]
  simp [parseBoundsOf, hsplit, List.mapM.loop, parseF_renderTh]

/-- The written name passes the startswith filter of its own language. -/
theorem hasPre_lmFileName (lang : List Char) (b : Bounds) :
    hasPre (lmPre lang) (lmFileName lang b) = true := by
  rw [show lmFileName lang b =
      lmPre lang ++ (joinU (boundsTokens b) ++ ".json".toList) by
    simp [lmFileName, lmPre, List.append_assoc]]
  exact hasPre_append _ _

/-- Files of non-matching language are skipped by the selection loop. -/
theorem findClosest_skip (req : List ℚ) (lang : List Char)
    (l1 l2 : List (List Char))
    (h : ∀ f ∈ l1, hasPre (lmPre lang) f = false) :
    ∀ minD best, findClosest req lang (l1 ++ l2) minD best =
      findClosest req lang l2 minD best := by
  induction l1 with
  | nil => intro minD best; rfl
  | cons f fs ih =>
    intro minD best
    have hf := h f (by simp)
    have hfs : ∀ x ∈ fs, hasPre (lmPre lang) x = false :=
      fun x hx => h x (by simp [hx])
    simp only [List.cons_append, findClosest]
    rw [if_neg (by simp [hf])]
    exact ih hfs _ _

/-- A sole matching parseable file is selected. -/
theorem findClosest_single (req : List ℚ) (lang : List Char) (name : List Char)
    (ds : List ℚ) (hp : hasPre (lmPre lang) name = true)
    (hparse : parseBoundsOf name = some ds) :
    findClosest req lang [name] none none = .ok (some name) := by
  simp [findClosest, hp, hparse, ltInf]

/-- Writing under a name absent from the directory appends the file. -/
theorem writeLm_fresh (l : List LmFile) (f : List Char) (r : CacheRecord)
    (now : ℚ) (h : ∀ e ∈ l, e.name ≠ f) :
    writeLm l f r now = l ++ [⟨f, r, now⟩] := by
  induction l with
  | nil => rfl
  | cons e es ih =>
    have he := h e (by simp)
    have hes : ∀ x ∈ es, x.name ≠ f := fun x hx => h x (by simp [hx])
    simp [writeLm, he, ih hes]

/-- Looking up the freshly appended file finds its record. -/
theorem lookupLm_append (l : List LmFile) (f : List Char) (r : CacheRecord)
    (now : ℚ) (h : ∀ e ∈ l, e.name ≠ f) :
    lookupLm (l ++ [⟨f, r, now⟩]) f = some r := by
  induction l with
  | nil => simp [lookupLm]
  | cons e es ih =>
    have he := h e (by simp)
    have hes : ∀ x ∈ es, x.name ≠ f := fun x hx => h x (by simp [hx])
    simp [lookupLm, he, ih hes]

/-- The landmark loop of cache_landmarks never introduces a cached_image
entry. -/
theorem processLms_cached (o : ImageOracle) (now : ℚ) (lms : List Landmark) :
    ∀ imgs, (∀ lm ∈ lms, lm.cached_image = none) →
      ∀ x ∈ (processLms o now lms imgs).1, x.cached_image = none := by
  induction lms with
  | nil => intro imgs h x hx; simp [processLms] at hx
  | cons lm rest ih =>
    intro imgs h x hx
    have hlm := h lm (by simp)
    have hrest : ∀ y ∈ rest, y.cached_image = none := fun y hy => h y (by simp [hy])
    cases hiu : lm.image_url with
    | none =>
      simp only [processLms, hiu] at hx
      rcases List.mem_cons.mp hx with rfl | hx2
      · exact hlm
      · exact ih imgs hrest x hx2
    | some u =>
      by_cases hu : u ≠ ""
      · simp only [processLms, hiu, if_pos hu] at hx
        rcases List.mem_cons.mp hx with rfl | hx2
        · by_cases hr : (cacheImage o imgs u now).1 ≠ "" <;>
            simp [hr, hlm]
        · exact ih _ hrest x hx2
      · simp only [processLms, hiu, if_neg hu] at hx
        rcases List.mem_cons.mp hx with rfl | hx2
        · exact hlm
        · exact ih imgs hrest x hx2

/-- Each output landmark of the loop equals its input except possibly the
image_url entry. -/
theorem processLms_shape (o : ImageOracle) (now : ℚ) (lms : List Landmark) :
    ∀ imgs, List.Forall₂
      (fun a c => c = a ∨ ∃ p, c = { a with image_url := some p })
      lms (processLms o now lms imgs).1 := by
  induction lms with
  | nil => intro imgs; simp [processLms]
  | cons lm rest ih =>
    intro imgs
    cases hiu : lm.image_url with
    | none =>
      simp only [processLms, hiu]
      exact List.Forall₂.cons (Or.inl rfl) (ih imgs)
    | some u =>
      simp only [processLms, hiu]
      by_cases hu : u ≠ ""
      · rw [if_pos hu]
        refine List.Forall₂.cons ?_ (ih _)
        by_cases hr : (cacheImage o imgs u now).1 ≠ ""
        · rw [if_pos hr]
          exact Or.inr ⟨(cacheImage o imgs u now).1, rfl⟩
        · rw [if_neg hr]
          exact Or.inl rfl
      · rw [if_neg hu]
        exact List.Forall₂.cons (Or.inl rfl) (ih imgs)

/-- Claim C6 (amended). Round trip: when the language contains no
underscore, the landmarks carry no cached_image entry, no other stored
file name starts with the landmarks_{language}_ filter and
max_age_hours is positive, get right after put returns exactly the list
put persisted, namely the input list with image_url replaced by the local
cache path for each landmark whose image was successfully cached (all
other fields unchanged). -/
theorem claim_C6_amended (o : ImageOracle) (st : SysState) (lms : List Landmark)
    (b : Bounds) (lang : List Char) (max_age now : ℚ)
    (hU : '_' ∉ lang)
    (hc : ∀ lm ∈ lms, lm.cached_image = none)
    (hclean : ∀ e ∈ st.lmFiles, hasPre (lmPre lang) e.name = false)
    (hmax : 0 < max_age) :
    get_cached_landmarks (cache_landmarks o st lms b lang now) b lang max_age now
      = (processLms o now lms st.imgFiles).1 ∧
    List.Forall₂ (fun a c => c = a ∨ ∃ p, c = { a with image_url := some p })
      lms (processLms o now lms st.imgFiles).1 := by
  refine ⟨?_, processLms_shape o now lms st.imgFiles⟩
  have hne : ∀ e ∈ st.lmFiles, e.name ≠ lmFileName lang b := by
    intro e he hn
    have h1 := hclean e he
    rw [hn, hasPre_lmFileName] at h1
    cases h1
  have hw : (cache_landmarks o st lms b lang now).lmFiles =
      st.lmFiles ++ [⟨lmFileName lang b,
        ⟨(processLms o now lms st.imgFiles).1, now, b, lang⟩, now⟩] := by
    simp only [cache_landmarks]
    exact writeLm_fresh st.lmFiles _ _ now hne
  have hnames : (cache_landmarks o st lms b lang now).lmFiles.map LmFile.name =
      st.lmFiles.map LmFile.name ++ [lmFileName lang b] := by
    rw [hw]; simp
  have hfind : findClosest (boundsList b) lang
      ((cache_landmarks o st lms b lang now).lmFiles.map LmFile.name) none none
      = .ok (some (lmFileName lang b)) := by
    rw [hnames,
      findClosest_skip _ _ _ _
        (fun f hf => by
          obtain ⟨e, he, rfl⟩ := List.mem_map.mp hf
          exact hclean e he) none none,
      findClosest_single _ _ _ _ (hasPre_lmFileName lang b)
        (parseBoundsOf_lmFileName lang b hU)]
  have hlook : lookupLm (cache_landmarks o st lms b lang now).lmFiles
      (lmFileName lang b)
      = some ⟨(processLms o now lms st.imgFiles).1, now, b, lang⟩ := by
    rw [hw]; exact lookupLm_append st.lmFiles _ _ now hne
  simp only [get_cached_landmarks, hfind, hlook]
  rw [if_pos ⟨by rw [sub_self, zero_div]; exact le_of_lt hmax, by trivial⟩]
  exact mapRewrite_eq (processLms_cached o now lms st.imgFiles hc)

/-- Claim C6 (counterexample). With the language fr_CA, which contains an
underscore, the round trip fails: get right after put on an empty store
returns [] instead of the put-transformed input list. -/
theorem claim_C6_counterexample :
    get_cached_landmarks (cache_landmarks oracle0 st0 [lm1] b11 "fr_CA".toList 0)
      b11 "fr_CA".toList 24 0 = [] ∧
    (processLms oracle0 0 [lm1] st0.imgFiles).1 = [lm1] ∧
    ([] : List Landmark) ≠ [lm1] := by
  exact ⟨by decide, by decide, by decide⟩

/-- Claim C6 (witness for the amended theorem): the round trip holds for
language en, one landmark with a cacheable image, an empty prior store
and the default freshness window. -/
theorem claim_C6_amended_witness :
    ('_' ∉ "en".toList) ∧ (0 : ℚ) < 24 ∧
    get_cached_landmarks (cache_landmarks oracle0 st0 [lmImg] b11 "en".toList 5)
        b11 "en".toList 24 5
      = (processLms oracle0 5 [lmImg] st0.imgFiles).1 :=
  ⟨by decide, by decide,
   (claim_C6_amended oracle0 st0 [lmImg] b11 "en".toList 24 5
      (by decide) (by decide) (by decide) (by decide)).1⟩
